import Mathlib

/-!
Verification of the go-wal write-ahead log against its specification.

The development shallowly embeds the Go source of the segmented WAL
(`wal.go`, `pb_util.go`, and the helper file holding
`unmarshalAndVerifyEntry` / `verifyCRC` / `findLastSegmentIndexinFiles`).
Bytes are `Nat` values (where it matters, a hypothesis `b < 256` encodes
Go's `byte` type invariant); files are `List Nat`; fallible Go paths return
explicit result datatypes whose constructors separate a returned error
value from a runtime panic.

The protocol-buffer codec for `WAL_Entry` (the generated `types` package
and the proto library) is not part of the given source tree; following the
specification it is modelled as a deterministic, length-delimited,
tag-based structured encoding of the four logical fields.  The checkpoint
operations (`CreateCheckpoint`, `ReadAll(after_checkpoint)`) are likewise
absent from the source tree and are modelled from the specification.

Loops from the source are embedded with an explicit fuel argument (always
instantiated with enough fuel at the wrappers), so that every definition
is executable and kernel-reducible on concrete inputs.
-/

namespace GoWal

/-- A WAL record: the logical fields of the persisted `WAL_Entry` message
(`seq : u64`, `data : bytes`, `crc : u32`, checkpoint flag). -/
structure WAL_Entry where
  logSequenceNumber : Nat
  data : List Nat
  crc : Nat
  isCheckpoint : Bool
deriving DecidableEq, Repr

/-! ## Variable-length integer encoding (fuel-based LEB128) -/

/-- Fuel-driven LEB128 worker: low seven bits per byte, high bit set on
continuation bytes. -/
def varintGo : Nat → Nat → List Nat
  | 0, n => [n]
  | f + 1, n => if n < 128 then [n] else (n % 128 + 128) :: varintGo f (n / 128)

/-- LEB128 encoding of a natural number. -/
def varint (n : Nat) : List Nat :=
  varintGo n n

/-- LEB128 decoder, returning the value and the unconsumed tail. -/
def varintDec : List Nat → Option (Nat × List Nat)
  | [] => none
  | b :: rest =>
    if b < 128 then some (b, rest)
    else
      match varintDec rest with
      | some (v, r) => some (b - 128 + 128 * v, r)
      | none => none

theorem varintGo_fuel (f g n : Nat) (hf : n ≤ f) (hg : n ≤ g) :
    varintGo f n = varintGo g n := by
  induction f using Nat.strong_induction_on generalizing g n with
  | _ f ih =>
    match f, g with
    | 0, 0 => rfl
    | 0, g + 1 =>
      interval_cases n
      simp [varintGo]
    | f + 1, 0 =>
      interval_cases n
      simp [varintGo]
    | f + 1, g + 1 =>
      simp only [varintGo]
      by_cases h : n < 128
      · simp [h]
      · simp only [if_neg h]
        have hn : 0 < n := by omega
        have hd : n / 128 < n := Nat.div_lt_self hn (by norm_num)
        rw [ih f (Nat.lt_succ_self f) g (n / 128) (by omega) (by omega)]

theorem varintDec_varintGo (f n : Nat) (hf : n ≤ f) (rest : List Nat) :
    varintDec (varintGo f n ++ rest) = some (n, rest) := by
  induction f generalizing n with
  | zero =>
    interval_cases n
    simp [varintGo, varintDec]
  | succ f ih =>
    simp only [varintGo]
    by_cases h : n < 128
    · simp [h, varintDec]
    · have hn : 0 < n := by omega
      have hd : n / 128 < n := Nat.div_lt_self hn (by norm_num)
      simp only [if_neg h, List.cons_append, varintDec]
      rw [if_neg (by omega), ih (n / 128) (by omega)]
      have hrec : n % 128 + 128 * (n / 128) = n := Nat.mod_add_div n 128
      simp only [Nat.add_sub_cancel]
      simp [hrec]

theorem varintDec_varint (n : Nat) (rest : List Nat) :
    varintDec (varint n ++ rest) = some (n, rest) :=
  varintDec_varintGo n n (Nat.le_refl n) rest

theorem varintGo_length_le (f n k : Nat) (hk : 0 < k) (h : n < 128 ^ k) :
    (varintGo f n).length ≤ k := by
  induction f generalizing n k with
  | zero => simpa [varintGo] using hk
  | succ f ih =>
    simp only [varintGo]
    by_cases hbelow : n < 128
    · simpa [hbelow] using hk
    · simp only [if_neg hbelow, List.length_cons]
      match k, hk with
      | 1, _ =>
        exfalso
        omega
      | k + 2, _ =>
        have : n / 128 < 128 ^ (k + 1) := by
          rw [pow_succ, Nat.mul_comm] at h
          exact Nat.div_lt_of_lt_mul h
        have := ih (n / 128) (k + 1) (by omega) this
        omega

theorem varint_length_le (n k : Nat) (hk : 0 < k) (h : n < 128 ^ k) :
    (varint n).length ≤ k :=
  varintGo_length_le n n k hk h

/-! ## CRC-32 (IEEE), reflected bitwise form of `crc32.ChecksumIEEE` -/

/-- One reflected CRC-32 bit step with the IEEE polynomial. -/
def crc32Bit (c : Nat) : Nat :=
  if c % 2 = 1 then (c / 2) ^^^ 0xEDB88320 else c / 2

/-- Fold one input byte into the running CRC (eight bit steps). -/
def crc32Byte (c b : Nat) : Nat :=
  crc32Bit^[8] (c ^^^ b)

/-- IEEE CRC-32 of a byte sequence, as computed by `crc32.ChecksumIEEE`. -/
def crc32 (l : List Nat) : Nat :=
  (l.foldl crc32Byte 0xFFFFFFFF) ^^^ 0xFFFFFFFF

theorem crc32Bit_lt (c : Nat) (h : c < 2 ^ 32) : crc32Bit c < 2 ^ 32 := by
  unfold crc32Bit
  split
  · exact Nat.xor_lt_two_pow (by omega) (by norm_num)
  · omega

theorem crc32Byte_lt (c b : Nat) (hc : c < 2 ^ 32) (hb : b < 256) :
    crc32Byte c b < 2 ^ 32 := by
  unfold crc32Byte
  have start : c ^^^ b < 2 ^ 32 := Nat.xor_lt_two_pow hc (by omega)
  have step : ∀ m x, x < 2 ^ 32 → crc32Bit^[m] x < 2 ^ 32 := by
    intro m
    induction m with
    | zero => intro x hx; simpa using hx
    | succ m ih =>
      intro x hx
      rw [Function.iterate_succ_apply]
      exact ih _ (crc32Bit_lt x hx)
  exact step 8 _ start

theorem crc32_lt (l : List Nat) (h : ∀ b ∈ l, b < 256) : crc32 l < 2 ^ 32 := by
  unfold crc32
  have : ∀ c, c < 2 ^ 32 → l.foldl crc32Byte c < 2 ^ 32 := by
    induction l with
    | nil => intro c hc; simpa using hc
    | cons x xs ih =>
      intro c hc
      simp only [List.foldl_cons]
      exact ih (fun b hb => h b (List.mem_cons_of_mem x hb)) _
        (crc32Byte_lt c x hc (h x (List.mem_cons_self x xs)))
  exact Nat.xor_lt_two_pow (this _ (by norm_num)) (by norm_num)

/-! ## Record codec -/

/-- Modelled from the spec: the canonical serialization produced by
`proto.Marshal` inside `MustMarshal` (the generated `types` package and the
proto library are not part of the given source tree).  Each logical field
is emitted as a tag byte followed by its value: varint fields for the
sequence number, CRC and checkpoint flag, and a length-delimited field for
the data bytes.  The encoding is deterministic, as the spec requires. -/
def mustMarshal (e : WAL_Entry) : List Nat :=
  8 :: varint e.logSequenceNumber
    ++ 18 :: varint e.data.length ++ e.data
    ++ 24 :: varint e.crc
    ++ 32 :: [if e.isCheckpoint then 1 else 0]

/-- Modelled from the spec: structural parsing by `proto.Unmarshal`
(`decode`: "parse, then verify CRC"; `Corrupt` covers the case where
"structured parsing fails").  The strict inverse of `mustMarshal`:
any deviation from the canonical field layout is a structural parse
failure, reported as `none`. -/
def expectTag (t : Nat) : List Nat → Option (List Nat)
  | [] => none
  | b :: r => if b = t then some r else none

def protoUnmarshal (bs : List Nat) : Option WAL_Entry := do
  let r1 ← expectTag 8 bs
  let (seq, r2) ← varintDec r1
  let r2t ← expectTag 18 r2
  let (len, r3) ← varintDec r2t
  if len ≤ r3.length then
    let r4 ← expectTag 24 (r3.drop len)
    let (c, r5) ← varintDec r4
    let r5t ← expectTag 32 r5
    match varintDec r5t with
    | some (cp, []) => if cp ≤ 1 then some ⟨seq, r3.take len, c, cp == 1⟩ else none
    | _ => none
  else none

theorem expectTag_cons (t : Nat) (r : List Nat) : expectTag t (t :: r) = some r := by
  simp [expectTag]

/-- Source `verifyCRC`: compare the stored CRC field with the IEEE CRC-32
recomputed over the data alone (the source zeroes the field, recomputes,
then restores it; the net effect is this comparison). -/
def verifyCRC (e : WAL_Entry) : Bool :=
  e.crc == crc32 e.data

/-- Outcome of the read-path decoder `unmarshalAndVerifyEntry`: a decoded
entry, a returned CRC-mismatch error, or a runtime panic (raised by
`MustUnmarshal` when structural parsing fails). -/
inductive DecodeResult where
  | ok (e : WAL_Entry)
  | corrupt
  | panicked
deriving DecidableEq, Repr

/-- Source `unmarshalAndVerifyEntry`: `MustUnmarshal` the payload (panics on
a structural parse failure), then return a CRC-mismatch error if
`verifyCRC` fails. -/
def unmarshalAndVerifyEntry (d : List Nat) : DecodeResult :=
  match protoUnmarshal d with
  | none => .panicked
  | some e => if verifyCRC e then .ok e else .corrupt

theorem protoUnmarshal_mustMarshal (e : WAL_Entry) :
    protoUnmarshal (mustMarshal e) = some e := by
  obtain ⟨seq, d, c, cp⟩ := e
  unfold mustMarshal protoUnmarshal
  simp only [List.cons_append, List.append_assoc]
  rw [expectTag_cons]
  simp only [Option.bind_eq_bind, Option.some_bind]
  rw [varintDec_varint]
  simp only [Option.some_bind]
  rw [expectTag_cons]
  simp only [Option.some_bind]
  rw [varintDec_varint]
  simp only [Option.some_bind]
  rw [if_pos (by simp)]
  rw [List.take_append_of_le_length (Nat.le_refl _), List.take_length]
  rw [List.drop_append_of_le_length (Nat.le_refl _), List.drop_length]
  simp only [List.nil_append]
  rw [expectTag_cons]
  simp only [Option.some_bind]
  rw [varintDec_varint]
  simp only [Option.some_bind]
  rw [expectTag_cons]
  simp only [Option.some_bind]
  have hone : varintDec [if cp then 1 else 0] =
      some (if cp then 1 else 0, []) := by
    by_cases h : cp <;> simp [h, varintDec]
  rw [hone]
  by_cases h : cp <;> simp [h]

theorem unmarshalAndVerifyEntry_mustMarshal (e : WAL_Entry)
    (h : e.crc = crc32 e.data) :
    unmarshalAndVerifyEntry (mustMarshal e) = .ok e := by
  unfold unmarshalAndVerifyEntry
  rw [protoUnmarshal_mustMarshal]
  simp [verifyCRC, h]

theorem mustMarshal_length (e : WAL_Entry) :
    (mustMarshal e).length =
      (varint e.logSequenceNumber).length + (varint e.data.length).length
        + e.data.length + (varint e.crc).length + 5 := by
  simp [mustMarshal]
  omega

/-- A convenient well-formedness bound: every entry whose fields are in the
ranges produced by the engine (`seq` and `data.length` below `2 ^ 20`,
`crc` a 32-bit value) has a marshalled size far below `2 ^ 31`, so its
length prefix survives the `int32` conversion in `writeEntryToBuffer`. -/
theorem mustMarshal_length_lt (e : WAL_Entry)
    (hseq : e.logSequenceNumber < 2 ^ 20) (hdata : e.data.length < 2 ^ 20)
    (hcrc : e.crc < 2 ^ 32) :
    (mustMarshal e).length < 2 ^ 31 := by
  have h1 : (varint e.logSequenceNumber).length ≤ 3 :=
    varint_length_le _ 3 (by norm_num) (by norm_num at hseq ⊢; omega)
  have h2 : (varint e.data.length).length ≤ 3 :=
    varint_length_le _ 3 (by norm_num) (by norm_num at hdata ⊢; omega)
  have h3 : (varint e.crc).length ≤ 5 :=
    varint_length_le _ 5 (by norm_num) (by norm_num at hcrc ⊢; omega)
  have := mustMarshal_length e
  norm_num at hdata ⊢
  omega

/-! ## Length-prefixed framing -/

/-- Little-endian 4-byte encoding of the `int32` length prefix written by
`binary.Write(wal.bufWriter, binary.LittleEndian, size)`. -/
def u32le (n : Nat) : List Nat :=
  [n % 256, n / 256 % 256, n / 65536 % 256, n / 16777216 % 256]

/-- Value of a 4-byte little-endian prefix, as read by `binary.Read` into
an `int32` (values with the high bit set denote negative sizes). -/
def asU32 (bs : List Nat) : Nat :=
  match bs with
  | b0 :: b1 :: b2 :: b3 :: _ => b0 + 256 * b1 + 65536 * b2 + 16777216 * b3
  | _ => 0

theorem u32le_length (n : Nat) : (u32le n).length = 4 := rfl

theorem asU32_u32le (n : Nat) (h : n < 2 ^ 32) (rest : List Nat) :
    asU32 (u32le n ++ rest) = n := by
  simp only [u32le, asU32, List.cons_append]
  omega

/-- On-disk frame of one record: the `int32` little-endian length prefix
followed by the marshalled entry, exactly as `writeEntryToBuffer` emits. -/
def frameOf (e : WAL_Entry) : List Nat :=
  u32le (mustMarshal e).length ++ mustMarshal e

/-- Contents of a segment file holding the given records in order. -/
def encFile : List WAL_Entry → List Nat
  | [] => []
  | e :: rest => frameOf e ++ encFile rest

theorem encFile_append (es fs : List WAL_Entry) :
    encFile (es ++ fs) = encFile es ++ encFile fs := by
  induction es with
  | nil => rfl
  | cons e es ih => simp [encFile, ih]

/-- Entries whose frames the readers consume cleanly: the marshalled size
fits an `int32` and the stored CRC matches the data. -/
def wfEntry (e : WAL_Entry) : Prop :=
  (mustMarshal e).length < 2 ^ 31 ∧ e.crc = crc32 e.data

instance (e : WAL_Entry) : Decidable (wfEntry e) := by
  unfold wfEntry
  infer_instance

/-! ## Reading a whole segment (`readAllEntriesFromFile`) -/

/-- Outcome of `readAllEntriesFromFile`: all records with a nil error, the
records read so far together with a returned error (short prefix read,
short body read, or CRC mismatch), or a panic (structural parse failure
inside `MustUnmarshal`, or a negative `int32` size passed to `make`). -/
inductive ReadResult where
  | ok (es : List WAL_Entry)
  | err (es : List WAL_Entry)
  | panicked (es : List WAL_Entry)
deriving DecidableEq, Repr

/-- Prepend a successfully read record to a loop outcome. -/
def ReadResult.consE (e : WAL_Entry) : ReadResult → ReadResult
  | .ok es => .ok (e :: es)
  | .err es => .err (e :: es)
  | .panicked es => .panicked (e :: es)

/-- Prepend a list of records to a loop outcome. -/
def ReadResult.consAll (es : List WAL_Entry) (r : ReadResult) : ReadResult :=
  es.foldr ReadResult.consE r

/-- One iteration of the `readAllEntriesFromFile` loop: read the `int32`
size (EOF on empty input ends the loop cleanly; a short read returns the
error), read the body (`io.ReadFull`, short read returns the error),
decode and verify (`unmarshalAndVerifyEntry`), then continue. -/
def readStep (rec : List Nat → ReadResult) (bytes : List Nat) : ReadResult :=
  match bytes with
  | [] => .ok []
  | _ :: _ =>
    if bytes.length < 4 then .err []
    else
      let size := asU32 bytes
      if 2 ^ 31 ≤ size then .panicked []
      else
        let rest := bytes.drop 4
        if rest.length < size then .err []
        else
          match unmarshalAndVerifyEntry (rest.take size) with
          | .panicked => .panicked []
          | .corrupt => .err []
          | .ok e => (rec (rest.drop size)).consE e

/-- Fuel-driven unfolding of the `readAllEntriesFromFile` loop. -/
def readGo : Nat → List Nat → ReadResult
  | 0, _ => .ok []
  | f + 1, bytes => readStep (readGo f) bytes

/-- Source `readAllEntriesFromFile`, on the byte contents of a segment. -/
def readAllEntriesFromFile (bytes : List Nat) : ReadResult :=
  readGo (bytes.length + 1) bytes

theorem readStep_congr (r1 r2 : List Nat → ReadResult) (bytes : List Nat)
    (h : ∀ bs, bs.length < bytes.length → r1 bs = r2 bs) :
    readStep r1 bytes = readStep r2 bytes := by
  cases bytes with
  | nil => rfl
  | cons b rest0 =>
    simp only [readStep]
    split_ifs with h1 h2 h3
    · rfl
    · rfl
    · rfl
    · rcases hu : unmarshalAndVerifyEntry
          (((b :: rest0).drop 4).take (asU32 (b :: rest0))) with e | _ | _
      · simp only [hu]
        congr 1
        apply h
        simp only [List.length_drop]
        simp only [List.length_cons] at h1 ⊢
        omega
      · simp [hu]
      · simp [hu]

theorem readGo_fuel (f g : Nat) (bytes : List Nat)
    (hf : bytes.length < f) (hg : bytes.length < g) :
    readGo f bytes = readGo g bytes := by
  induction f generalizing g bytes with
  | zero => omega
  | succ f ih =>
    match g with
    | 0 => omega
    | g + 1 =>
      simp only [readGo]
      apply readStep_congr
      intro bs hbs
      exact ih g bs (by omega) (by omega)

theorem readAllEntriesFromFile_nil : readAllEntriesFromFile [] = .ok [] := rfl

theorem frameOf_cons (e : WAL_Entry) (rest : List Nat) :
    frameOf e ++ rest =
      (mustMarshal e).length % 256 :: (mustMarshal e).length / 256 % 256 ::
        (mustMarshal e).length / 65536 % 256 ::
        (mustMarshal e).length / 16777216 % 256 :: (mustMarshal e ++ rest) := by
  simp [frameOf, u32le, List.append_assoc]

theorem readGo_frame (f : Nat) (e : WAL_Entry) (rest : List Nat)
    (hwf : wfEntry e) (hfuel : (frameOf e ++ rest).length < f) :
    readGo f (frameOf e ++ rest) = (readGo f rest).consE e := by
  obtain ⟨hlen, hcrc⟩ := hwf
  have hflen : (frameOf e).length = 4 + (mustMarshal e).length := by
    simp [frameOf, u32le_length]
  match f with
  | 0 => omega
  | f + 1 =>
    have hrest : rest.length < f := by
      simp only [List.length_append, hflen] at hfuel
      omega
    show readStep (readGo f) (frameOf e ++ rest) = _
    rw [frameOf_cons]
    simp only [readStep]
    have hsz : asU32 ((mustMarshal e).length % 256 :: (mustMarshal e).length / 256 % 256 ::
        (mustMarshal e).length / 65536 % 256 ::
        (mustMarshal e).length / 16777216 % 256 :: (mustMarshal e ++ rest))
        = (mustMarshal e).length := by
      simp only [asU32]
      omega
    rw [if_neg (by simp only [List.length_cons]; omega), hsz, if_neg (by omega)]
    simp only [List.drop_succ_cons, List.drop_zero]
    rw [if_neg (by simp only [List.length_append]; omega)]
    rw [List.take_append_of_le_length (Nat.le_refl _), List.take_length]
    rw [List.drop_append_of_le_length (Nat.le_refl _), List.drop_length]
    simp only [List.nil_append]
    rw [unmarshalAndVerifyEntry_mustMarshal e hcrc]
    rw [readGo_fuel f (f + 1) rest hrest (by omega)]

/-- Reading a file that starts with a well-formed frame consumes the frame
and continues with the remainder. -/
theorem readAllEntriesFromFile_frame (e : WAL_Entry) (rest : List Nat)
    (hwf : wfEntry e) :
    readAllEntriesFromFile (frameOf e ++ rest) =
      (readAllEntriesFromFile rest).consE e := by
  unfold readAllEntriesFromFile
  rw [readGo_frame _ e rest hwf (by omega)]
  congr 1
  apply readGo_fuel
  · simp only [List.length_append]
    omega
  · omega

/-- Reading a file made of well-formed frames followed by a tail prepends
all those records to the tail's outcome. -/
theorem readAllEntriesFromFile_encFile (es : List WAL_Entry) (tail : List Nat)
    (hwf : ∀ e ∈ es, wfEntry e) :
    readAllEntriesFromFile (encFile es ++ tail) =
      (readAllEntriesFromFile tail).consAll es := by
  induction es with
  | nil => simp [encFile, ReadResult.consAll]
  | cons e es ih =>
    have he : wfEntry e := hwf e (List.mem_cons_self e es)
    have hes : ∀ x ∈ es, wfEntry x := fun x hx => hwf x (List.mem_cons_of_mem e hx)
    simp only [encFile, List.append_assoc]
    rw [readAllEntriesFromFile_frame e _ he, ih hes]
    simp [ReadResult.consAll]

theorem consAll_ok (es fs : List WAL_Entry) :
    ReadResult.consAll es (.ok fs) = .ok (es ++ fs) := by
  induction es with
  | nil => rfl
  | cons e es ih =>
    simp only [ReadResult.consAll, List.foldr_cons] at ih ⊢
    rw [ih]
    rfl

theorem consAll_err (es fs : List WAL_Entry) :
    ReadResult.consAll es (.err fs) = .err (es ++ fs) := by
  induction es with
  | nil => rfl
  | cons e es ih =>
    simp only [ReadResult.consAll, List.foldr_cons] at ih ⊢
    rw [ih]
    rfl

theorem readAllEntriesFromFile_clean (es : List WAL_Entry)
    (hwf : ∀ e ∈ es, wfEntry e) :
    readAllEntriesFromFile (encFile es) = .ok es := by
  have h := readAllEntriesFromFile_encFile es [] hwf
  simp only [List.append_nil] at h
  rw [h, readAllEntriesFromFile_nil, consAll_ok]
  simp

/-! ## Recovering the last sequence number (`getLastEntryInLog`) -/

/-- Outcome of `getLastEntryInLog`: the last well-formed record (or `none`
for an empty segment), a returned error, a panic from `MustUnmarshal`, or
`outOfModel` for a negative `int32` size (the source would then `Seek`
backwards, which the byte-suffix embedding does not represent; no
well-formed segment reaches this branch). -/
inductive LastResult where
  | ok (e : Option WAL_Entry)
  | err
  | panicked
  | outOfModel
deriving DecidableEq, Repr

/-- One iteration of the `getLastEntryInLog` loop.  `saved` carries the
file suffix starting at the saved payload offset together with
`previousSize`; on EOF the source seeks back there and decodes that last
record (`nil` entry when the offset was never advanced). -/
def lastStep (rec : List Nat → Option (List Nat × Nat) → LastResult)
    (bytes : List Nat) (saved : Option (List Nat × Nat)) : LastResult :=
  match bytes with
  | [] =>
    match saved with
    | none => .ok none
    | some (tail, psize) =>
      if tail.length < psize then .err
      else
        match unmarshalAndVerifyEntry (tail.take psize) with
        | .panicked => .panicked
        | .corrupt => .err
        | .ok e => .ok (some e)
  | _ :: _ =>
    if bytes.length < 4 then .err
    else
      let size := asU32 bytes
      if 2 ^ 31 ≤ size then .outOfModel
      else rec ((bytes.drop 4).drop size) (some (bytes.drop 4, size))

/-- Fuel-driven unfolding of the `getLastEntryInLog` loop. -/
def lastGo : Nat → List Nat → Option (List Nat × Nat) → LastResult
  | 0, _, _ => .err
  | f + 1, bytes, saved => lastStep (lastGo f) bytes saved

/-- Source `getLastEntryInLog` on the contents of the current segment. -/
def getLastEntryInLog (bytes : List Nat) : LastResult :=
  lastGo (bytes.length + 1) bytes none

/-- Source `getLastSequenceNo`: the sequence number of the last entry, `0`
for an empty segment, `none` when the scan fails (in which case `OpenWAL`
itself fails). -/
def getLastSequenceNo (bytes : List Nat) : Option Nat :=
  match getLastEntryInLog bytes with
  | .ok none => some 0
  | .ok (some e) => some e.logSequenceNumber
  | _ => none

theorem lastStep_congr (r1 r2 : List Nat → Option (List Nat × Nat) → LastResult)
    (bytes : List Nat) (saved : Option (List Nat × Nat))
    (h : ∀ bs sv, bs.length < bytes.length → r1 bs sv = r2 bs sv) :
    lastStep r1 bytes saved = lastStep r2 bytes saved := by
  cases bytes with
  | nil => rfl
  | cons b rest0 =>
    simp only [lastStep]
    split_ifs with h1 h2
    · rfl
    · rfl
    · apply h
      simp only [List.length_drop, List.length_cons] at h1 ⊢
      omega

theorem lastGo_fuel (f g : Nat) (bytes : List Nat) (saved : Option (List Nat × Nat))
    (hf : bytes.length < f) (hg : bytes.length < g) :
    lastGo f bytes saved = lastGo g bytes saved := by
  induction f generalizing g bytes saved with
  | zero => omega
  | succ f ih =>
    match g with
    | 0 => omega
    | g + 1 =>
      simp only [lastGo]
      apply lastStep_congr
      intro bs sv hbs
      exact ih g bs sv (by omega) (by omega)

theorem lastGo_frame (f : Nat) (e : WAL_Entry) (rest : List Nat)
    (saved : Option (List Nat × Nat)) (hwf : wfEntry e)
    (hfuel : (frameOf e ++ rest).length < f) :
    lastGo f (frameOf e ++ rest) saved =
      lastGo f rest (some (mustMarshal e ++ rest, (mustMarshal e).length)) := by
  obtain ⟨hlen, hcrc⟩ := hwf
  have hflen : (frameOf e).length = 4 + (mustMarshal e).length := by
    simp [frameOf, u32le_length]
  match f with
  | 0 => omega
  | f + 1 =>
    have hrest : rest.length < f := by
      simp only [List.length_append, hflen] at hfuel
      omega
    show lastStep (lastGo f) (frameOf e ++ rest) saved = _
    rw [frameOf_cons]
    simp only [lastStep]
    have hsz : asU32 ((mustMarshal e).length % 256 :: (mustMarshal e).length / 256 % 256 ::
        (mustMarshal e).length / 65536 % 256 ::
        (mustMarshal e).length / 16777216 % 256 :: (mustMarshal e ++ rest))
        = (mustMarshal e).length := by
      simp only [asU32]
      omega
    rw [if_neg (by simp only [List.length_cons]; omega), hsz, if_neg (by omega)]
    simp only [List.drop_succ_cons, List.drop_zero]
    rw [List.drop_append_of_le_length (Nat.le_refl _), List.drop_length]
    simp only [List.nil_append]
    exact lastGo_fuel f (f + 1) rest _ hrest (by omega)

theorem lastGo_final (f : Nat) (e : WAL_Entry) (hwf : wfEntry e) (hf : 0 < f) :
    lastGo f [] (some (mustMarshal e, (mustMarshal e).length)) = .ok (some e) := by
  obtain ⟨hlen, hcrc⟩ := hwf
  match f with
  | f + 1 =>
    show lastStep (lastGo f) [] _ = _
    simp only [lastStep]
    rw [if_neg (by omega), List.take_length, unmarshalAndVerifyEntry_mustMarshal e hcrc]

/-- Scanning a segment holding well-formed frames returns its last record. -/
theorem getLastEntryInLog_concat (es : List WAL_Entry) (e : WAL_Entry)
    (hwf : ∀ x ∈ es ++ [e], wfEntry x) :
    getLastEntryInLog (encFile (es ++ [e])) = .ok (some e) := by
  suffices h : ∀ f saved, (encFile (es ++ [e])).length < f →
      lastGo f (encFile (es ++ [e])) saved = .ok (some e) by
    exact h _ none (by omega)
  induction es with
  | nil =>
    intro f saved hfuel
    have he : wfEntry e := hwf e (by simp)
    simp only [List.nil_append, encFile] at hfuel ⊢
    rw [lastGo_frame f e [] saved he hfuel]
    have : (mustMarshal e ++ [] : List Nat) = mustMarshal e := by simp
    rw [this]
    apply lastGo_final f e he
    simp only [List.length_append] at hfuel
    omega
  | cons x es ih =>
    intro f saved hfuel
    have hx : wfEntry x := hwf x (by simp)
    have hes : ∀ y ∈ es ++ [e], wfEntry y := by
      intro y hy
      exact hwf y (by simp at hy ⊢; tauto)
    simp only [List.cons_append, encFile] at hfuel ⊢
    rw [lastGo_frame f x _ saved hx hfuel]
    apply ih hes
    simp only [List.length_append, List.append_eq] at hfuel ⊢
    omega

/-- Recovered last sequence number of a healthy non-empty segment. -/
theorem getLastSequenceNo_concat (es : List WAL_Entry) (e : WAL_Entry)
    (hwf : ∀ x ∈ es ++ [e], wfEntry x) :
    getLastSequenceNo (encFile (es ++ [e])) = some e.logSequenceNumber := by
  unfold getLastSequenceNo
  rw [getLastEntryInLog_concat es e hwf]

theorem getLastSequenceNo_nil : getLastSequenceNo [] = some 0 := rfl

/-! ## Write path (`WriteEntry` without rotation) -/

/-- In-memory state relevant to the write path: the cached last sequence
number and the bytes of the current segment (buffer and file contents
taken together, as they appear after a `Sync`/`Close` flush). -/
structure WALState where
  lastSequenceNo : Nat
  file : List Nat
deriving DecidableEq, Repr

/-- State right after `OpenWAL` on a fresh (empty) directory: `segment-0`
created empty, `lastSequenceNo` recovered as 0. -/
def freshWAL : WALState :=
  ⟨0, []⟩

/-- Source `createEntry`: increment the sequence number and build the
record with the IEEE CRC-32 of its data. -/
def createEntry (lastSeq : Nat) (data : List Nat) : WAL_Entry :=
  ⟨lastSeq + 1, data, crc32 data, false⟩

/-- Source `WriteEntry` in the no-rotation regime (the current segment is
below `maxFileSize`, so `rotateLogIfNeeded` does nothing): `createEntry`
followed by `writeEntryToBuffer`, which appends the length-prefixed
marshalled record. -/
def writeEntry (s : WALState) (data : List Nat) : WALState :=
  { lastSequenceNo := s.lastSequenceNo + 1,
    file := s.file ++ frameOf (createEntry s.lastSequenceNo data) }

/-- A sequence of `WriteEntry` calls. -/
def writeAll (s : WALState) (ws : List (List Nat)) : WALState :=
  ws.foldl writeEntry s

/-- The records produced for payloads `ws` when the sequence counter hands
out `seq, seq+1, …`. -/
def mkEntries (seq : Nat) : List (List Nat) → List WAL_Entry
  | [] => []
  | w :: ws => ⟨seq, w, crc32 w, false⟩ :: mkEntries (seq + 1) ws

theorem mkEntries_map_data (seq : Nat) (ws : List (List Nat)) :
    (mkEntries seq ws).map WAL_Entry.data = ws := by
  induction ws generalizing seq with
  | nil => rfl
  | cons w ws ih => simp [mkEntries, ih]

theorem mkEntries_map_seq (seq : Nat) (ws : List (List Nat)) :
    (mkEntries seq ws).map WAL_Entry.logSequenceNumber = List.range' seq ws.length := by
  induction ws generalizing seq with
  | nil => rfl
  | cons w ws ih => simp [mkEntries, List.range', ih]

theorem mkEntries_concat (seq : Nat) (ws : List (List Nat)) (w : List Nat) :
    mkEntries seq (ws ++ [w]) =
      mkEntries seq ws ++ [⟨seq + ws.length, w, crc32 w, false⟩] := by
  induction ws generalizing seq with
  | nil => simp [mkEntries]
  | cons v ws ih =>
    simp only [List.cons_append, List.append_eq, mkEntries, ih, List.length_cons]
    have h1 : seq + 1 + ws.length = seq + (ws.length + 1) := by omega
    rw [h1]

theorem mkEntries_wf (seq : Nat) (ws : List (List Nat))
    (hbytes : ∀ w ∈ ws, ∀ b ∈ w, b < 256)
    (hlen : ∀ w ∈ ws, w.length < 2 ^ 20)
    (hseq : seq + ws.length ≤ 2 ^ 20) :
    ∀ e ∈ mkEntries seq ws, wfEntry e := by
  induction ws generalizing seq with
  | nil => simp [mkEntries]
  | cons w ws ih =>
    intro e he
    simp only [mkEntries, List.mem_cons] at he
    rcases he with he | he
    · subst he
      constructor
      · apply mustMarshal_length_lt
        · show seq < 2 ^ 20
          simp only [List.length_cons] at hseq
          omega
        · exact hlen w (List.mem_cons_self w ws)
        · exact crc32_lt w (hbytes w (List.mem_cons_self w ws))
      · rfl
    · exact ih (seq + 1)
        (fun v hv => hbytes v (List.mem_cons_of_mem w hv))
        (fun v hv => hlen v (List.mem_cons_of_mem w hv))
        (by simp only [List.length_cons] at hseq; omega) e he

theorem writeAll_spec (s : WALState) (ws : List (List Nat)) :
    writeAll s ws =
      ⟨s.lastSequenceNo + ws.length,
        s.file ++ encFile (mkEntries (s.lastSequenceNo + 1) ws)⟩ := by
  induction ws generalizing s with
  | nil => simp [writeAll, encFile]
  | cons w ws ih =>
    simp only [writeAll, List.foldl_cons] at ih ⊢
    rw [ih]
    simp only [writeEntry, createEntry, mkEntries, encFile, List.length_cons,
      WALState.mk.injEq]
    constructor
    · omega
    · simp [List.append_assoc]

/-- C1: writes `w_1…w_n` on a fresh directory (no rotation) produce, on a
full read, exactly `n` records carrying `w_1…w_n` in order with sequence
numbers `1…n`; after close and reopen the recovered counter is `n`, so the
next `WriteEntry` creates sequence number `n + 1`. -/
theorem C1_write_read_reopen (ws : List (List Nat))
    (hbytes : ∀ w ∈ ws, ∀ b ∈ w, b < 256)
    (hlen : ∀ w ∈ ws, w.length < 2 ^ 20)
    (hcount : ws.length < 2 ^ 20) :
    readAllEntriesFromFile (writeAll freshWAL ws).file = .ok (mkEntries 1 ws) ∧
    (mkEntries 1 ws).map WAL_Entry.data = ws ∧
    (mkEntries 1 ws).map WAL_Entry.logSequenceNumber = List.range' 1 ws.length ∧
    getLastSequenceNo (writeAll freshWAL ws).file = some ws.length ∧
    ∀ w : List Nat,
      (createEntry ((getLastSequenceNo (writeAll freshWAL ws).file).getD 0) w).logSequenceNumber
        = ws.length + 1 := by
  have hwf : ∀ e ∈ mkEntries 1 ws, wfEntry e :=
    mkEntries_wf 1 ws hbytes hlen (by omega)
  have hfile : (writeAll freshWAL ws).file = encFile (mkEntries 1 ws) := by
    rw [writeAll_spec]
    simp [freshWAL]
  have hlast : getLastSequenceNo (writeAll freshWAL ws).file = some ws.length := by
    rw [hfile]
    rcases List.eq_nil_or_concat ws with hnil | ⟨ws', w, hconcat⟩
    · subst hnil
      simp [mkEntries, encFile, getLastSequenceNo_nil]
    · rw [List.concat_eq_append] at hconcat
      subst hconcat
      rw [mkEntries_concat]
      rw [getLastSequenceNo_concat _ _ (by rw [← mkEntries_concat]; exact hwf)]
      simp only [List.length_append, List.length_cons, List.length_nil]
      congr 1
      omega
  refine ⟨?_, mkEntries_map_data 1 ws, mkEntries_map_seq 1 ws, hlast, ?_⟩
  · rw [hfile]
    exact readAllEntriesFromFile_clean _ hwf
  · intro w
    rw [hlast]
    rfl

/-- C1 witness: two concrete writes on a fresh directory. -/
theorem C1_witness :
    readAllEntriesFromFile (writeAll freshWAL [[7], []]).file
        = .ok (mkEntries 1 [[7], []]) ∧
    (mkEntries 1 [[7], []]).map WAL_Entry.data = [[7], []] ∧
    (mkEntries 1 [[7], []]).map WAL_Entry.logSequenceNumber
        = List.range' 1 (List.length [[7], []]) ∧
    getLastSequenceNo (writeAll freshWAL [[7], []]).file
        = some (List.length [[7], []]) ∧
    ∀ w : List Nat,
      (createEntry ((getLastSequenceNo (writeAll freshWAL [[7], []]).file).getD 0)
          w).logSequenceNumber = List.length [[7], []] + 1 :=
  C1_write_read_reopen [[7], []] (by decide) (by decide) (by decide)

/-- C2: a record whose CRC field is the IEEE CRC-32 of its data decodes
from its own encoding without error, yielding the identical record
(sequence number, data and CRC all preserved). -/
theorem C2_roundtrip (e : WAL_Entry) (h : e.crc = crc32 e.data) :
    unmarshalAndVerifyEntry (mustMarshal e) = .ok e :=
  unmarshalAndVerifyEntry_mustMarshal e h

/-- C2 witness: a concrete record with empty data, whose CRC-32 is 0. -/
theorem C2_witness :
    (⟨3, [], 0, false⟩ : WAL_Entry).crc = crc32 (⟨3, [], 0, false⟩ : WAL_Entry).data ∧
    unmarshalAndVerifyEntry (mustMarshal ⟨3, [], 0, false⟩) = .ok ⟨3, [], 0, false⟩ :=
  ⟨by decide, C2_roundtrip ⟨3, [], 0, false⟩ (by decide)⟩

/-! ## Repair (`Repair` and `replaceWithFixedFile`) -/

/-- Outcome of the `Repair` scan over the newest segment.
`cleanEOF es`: the loop reached a clean EOF; the source returns
`(es, io.EOF)` and never calls `replaceWithFixedFile`.
`fixedNoRet es`: the `int32` size read failed short of EOF; the file is
replaced with the re-encoding of `es` but the source returns `(nil, nil)`.
`fixed es`: a short body read, a structural parse failure, or a CRC
mismatch; the file is replaced with the re-encoding of `es` and the source
returns `(es, nil)`.
`panicked`: a negative `int32` size made `make` panic. -/
inductive RepairRes where
  | cleanEOF (es : List WAL_Entry)
  | fixedNoRet (es : List WAL_Entry)
  | fixed (es : List WAL_Entry)
  | panicked
deriving DecidableEq, Repr

/-- Prepend a successfully scanned record to a repair outcome. -/
def RepairRes.consE (e : WAL_Entry) : RepairRes → RepairRes
  | .cleanEOF es => .cleanEOF (e :: es)
  | .fixedNoRet es => .fixedNoRet (e :: es)
  | .fixed es => .fixed (e :: es)
  | .panicked => .panicked

/-- Prepend a list of records to a repair outcome. -/
def RepairRes.consAll (es : List WAL_Entry) (r : RepairRes) : RepairRes :=
  es.foldr RepairRes.consE r

/-- One iteration of the `Repair` loop, mirroring the source branch for
branch: EOF on the size read ends the scan (returning the `io.EOF` error);
any other size-read failure replaces the file and returns `nil, nil`; a
short body read, `proto.Unmarshal` failure, or `verifyCRC` failure
replaces the file and returns the accumulated entries with a nil error. -/
def repairStep (rec : List Nat → RepairRes) (bytes : List Nat) : RepairRes :=
  match bytes with
  | [] => .cleanEOF []
  | _ :: _ =>
    if bytes.length < 4 then .fixedNoRet []
    else
      let size := asU32 bytes
      if 2 ^ 31 ≤ size then .panicked
      else
        let rest := bytes.drop 4
        if rest.length < size then .fixed []
        else
          match protoUnmarshal (rest.take size) with
          | none => .fixed []
          | some e =>
            if verifyCRC e then (rec (rest.drop size)).consE e
            else .fixed []

/-- Fuel-driven unfolding of the `Repair` scan. -/
def repairGo : Nat → List Nat → RepairRes
  | 0, _ => .cleanEOF []
  | f + 1, bytes => repairStep (repairGo f) bytes

/-- Source `Repair`, as a scan of the newest segment's bytes. -/
def repairScan (bytes : List Nat) : RepairRes :=
  repairGo (bytes.length + 1) bytes

/-- Error value returned by `Repair` alongside the records. -/
inductive GoError where
  | nilErr
  | eofErr
deriving DecidableEq, Repr

/-- The record list `Repair` returns to its caller. -/
def repairRetEntries : RepairRes → List WAL_Entry
  | .cleanEOF es => es
  | .fixedNoRet _ => []
  | .fixed es => es
  | .panicked => []

/-- The error value `Repair` returns to its caller (`panicked` never
returns; the value is immaterial there). -/
def repairRetErr : RepairRes → GoError
  | .cleanEOF _ => .eofErr
  | _ => .nilErr

/-- Contents of the newest segment file after `Repair`: untouched on a
clean EOF, otherwise replaced (`replaceWithFixedFile`) with exactly the
re-encoding of the accumulated prefix. -/
def repairNewFile (orig : List Nat) : RepairRes → List Nat
  | .cleanEOF _ => orig
  | .fixedNoRet es => encFile es
  | .fixed es => encFile es
  | .panicked => orig

theorem repairStep_congr (r1 r2 : List Nat → RepairRes) (bytes : List Nat)
    (h : ∀ bs, bs.length < bytes.length → r1 bs = r2 bs) :
    repairStep r1 bytes = repairStep r2 bytes := by
  cases bytes with
  | nil => rfl
  | cons b rest0 =>
    simp only [repairStep]
    split_ifs with h1 h2 h3
    · rfl
    · rfl
    · rfl
    · rcases hu : protoUnmarshal (((b :: rest0).drop 4).take (asU32 (b :: rest0))) with _ | e
      · simp [hu]
      · simp only [hu]
        split_ifs with h4
        · congr 1
          apply h
          simp only [List.length_drop, List.length_cons] at h1 ⊢
          omega
        · rfl

theorem repairGo_fuel (f g : Nat) (bytes : List Nat)
    (hf : bytes.length < f) (hg : bytes.length < g) :
    repairGo f bytes = repairGo g bytes := by
  induction f generalizing g bytes with
  | zero => omega
  | succ f ih =>
    match g with
    | 0 => omega
    | g + 1 =>
      simp only [repairGo]
      apply repairStep_congr
      intro bs hbs
      exact ih g bs (by omega) (by omega)

theorem repairGo_frame (f : Nat) (e : WAL_Entry) (rest : List Nat)
    (hwf : wfEntry e) (hfuel : (frameOf e ++ rest).length < f) :
    repairGo f (frameOf e ++ rest) = (repairGo f rest).consE e := by
  obtain ⟨hlen, hcrc⟩ := hwf
  have hflen : (frameOf e).length = 4 + (mustMarshal e).length := by
    simp [frameOf, u32le_length]
  match f with
  | 0 => omega
  | f + 1 =>
    have hrest : rest.length < f := by
      simp only [List.length_append, hflen] at hfuel
      omega
    show repairStep (repairGo f) (frameOf e ++ rest) = _
    rw [frameOf_cons]
    simp only [repairStep]
    have hsz : asU32 ((mustMarshal e).length % 256 :: (mustMarshal e).length / 256 % 256 ::
        (mustMarshal e).length / 65536 % 256 ::
        (mustMarshal e).length / 16777216 % 256 :: (mustMarshal e ++ rest))
        = (mustMarshal e).length := by
      simp only [asU32]
      omega
    rw [if_neg (by simp only [List.length_cons]; omega), hsz, if_neg (by omega)]
    simp only [List.drop_succ_cons, List.drop_zero]
    rw [if_neg (by simp only [List.length_append]; omega)]
    rw [List.take_append_of_le_length (Nat.le_refl _), List.take_length]
    rw [List.drop_append_of_le_length (Nat.le_refl _), List.drop_length]
    simp only [List.nil_append]
    rw [protoUnmarshal_mustMarshal e]
    rw [repairGo_fuel f (f + 1) rest hrest (by omega)]
    simp [verifyCRC, hcrc]

theorem repairScan_encFile (es : List WAL_Entry) (tail : List Nat)
    (hwf : ∀ e ∈ es, wfEntry e) :
    repairScan (encFile es ++ tail) = (repairScan tail).consAll es := by
  suffices h : ∀ f, (encFile es ++ tail).length < f →
      repairGo f (encFile es ++ tail) = (repairScan tail).consAll es by
    exact h _ (by omega)
  induction es with
  | nil =>
    intro f hfuel
    simp only [encFile, List.nil_append] at hfuel ⊢
    rw [RepairRes.consAll, List.foldr_nil]
    unfold repairScan
    exact repairGo_fuel f _ tail hfuel (by omega)
  | cons e es ih =>
    intro f hfuel
    have he : wfEntry e := hwf e (List.mem_cons_self e es)
    have hes : ∀ x ∈ es, wfEntry x := fun x hx => hwf x (List.mem_cons_of_mem e hx)
    simp only [encFile, List.append_assoc] at hfuel ⊢
    rw [repairGo_frame f e _ he hfuel]
    rw [ih hes f (by simp only [List.length_append] at hfuel ⊢; omega)]
    simp [RepairRes.consAll]

theorem repairConsAll_cleanEOF (es fs : List WAL_Entry) :
    RepairRes.consAll es (.cleanEOF fs) = .cleanEOF (es ++ fs) := by
  induction es with
  | nil => rfl
  | cons e es ih =>
    simp only [RepairRes.consAll, List.foldr_cons] at ih ⊢
    rw [ih]
    rfl

theorem repairConsAll_fixedNoRet (es fs : List WAL_Entry) :
    RepairRes.consAll es (.fixedNoRet fs) = .fixedNoRet (es ++ fs) := by
  induction es with
  | nil => rfl
  | cons e es ih =>
    simp only [RepairRes.consAll, List.foldr_cons] at ih ⊢
    rw [ih]
    rfl

theorem repairConsAll_fixed (es fs : List WAL_Entry) :
    RepairRes.consAll es (.fixed fs) = .fixed (es ++ fs) := by
  induction es with
  | nil => rfl
  | cons e es ih =>
    simp only [RepairRes.consAll, List.foldr_cons] at ih ⊢
    rw [ih]
    rfl

theorem u32le_cons (n : Nat) (rest : List Nat) :
    u32le n ++ rest =
      n % 256 :: n / 256 % 256 :: n / 65536 % 256 :: n / 16777216 % 256 :: rest := by
  simp [u32le]

theorem repairScan_eq (tail : List Nat) :
    repairScan tail = repairStep (repairGo tail.length) tail := rfl

theorem repairScan_shortHeader (tail : List Nat)
    (h1 : 0 < tail.length) (h2 : tail.length < 4) :
    repairScan tail = .fixedNoRet [] := by
  rw [repairScan_eq]
  cases tail with
  | nil => simp at h1
  | cons b r =>
    simp only [repairStep]
    rw [if_pos h2]

theorem repairScan_shortBody (n : Nat) (body : List Nat)
    (hn : n < 2 ^ 31) (hb : body.length < n) :
    repairScan (u32le n ++ body) = .fixed [] := by
  rw [repairScan_eq, u32le_cons]
  simp only [repairStep]
  have hsz : asU32 (n % 256 :: n / 256 % 256 :: n / 65536 % 256 ::
      n / 16777216 % 256 :: body) = n := by
    simp only [asU32]
    omega
  rw [if_neg (by simp only [List.length_cons]; omega), hsz, if_neg (by omega)]
  simp only [List.drop_succ_cons, List.drop_zero]
  rw [if_pos hb]

theorem repairScan_badBody (n : Nat) (body rest2 : List Nat)
    (hn : n < 2 ^ 31) (hblen : body.length = n)
    (hbad : (protoUnmarshal body).elim True (fun e => e.crc ≠ crc32 e.data)) :
    repairScan (u32le n ++ body ++ rest2) = .fixed [] := by
  rw [repairScan_eq, List.append_assoc, u32le_cons]
  simp only [repairStep]
  have hsz : asU32 (n % 256 :: n / 256 % 256 :: n / 65536 % 256 ::
      n / 16777216 % 256 :: (body ++ rest2)) = n := by
    simp only [asU32]
    omega
  rw [if_neg (by simp only [List.length_cons]; omega), hsz, if_neg (by omega)]
  simp only [List.drop_succ_cons, List.drop_zero]
  rw [if_neg (by simp only [List.length_append]; omega)]
  have htake : (body ++ rest2).take n = body := by
    rw [← hblen, List.take_append_of_le_length (Nat.le_refl _), List.take_length]
  rw [htake]
  rcases hp : protoUnmarshal body with _ | e
  · rfl
  · rw [hp] at hbad
    simp only [Option.elim] at hbad
    simp only [verifyCRC]
    rw [if_neg (by simpa using hbad)]

/-- A tail whose `int32` size read fails short of EOF (1–3 stray bytes). -/
def shortHeaderTail (tail : List Nat) : Prop :=
  0 < tail.length ∧ tail.length < 4

instance (tail : List Nat) : Decidable (shortHeaderTail tail) := by
  unfold shortHeaderTail
  infer_instance

/-- The corruption triggers of the `Repair` scan, at the point where the
well-formed record prefix has been consumed: a short read of the length
prefix, a short read of a framed body, a structural parse failure, or a
CRC mismatch. -/
def corruptionTrigger (tail : List Nat) : Prop :=
  shortHeaderTail tail ∨
  ∃ n body, n < 2 ^ 31 ∧
    ((tail = u32le n ++ body ∧ body.length < n) ∨
     ∃ rest2, tail = u32le n ++ body ++ rest2 ∧ body.length = n ∧
       (protoUnmarshal body = none ∨
        ∃ e, protoUnmarshal body = some e ∧ e.crc ≠ crc32 e.data))

/-- C3 counterexample: a healthy record followed by a single stray byte.
`Repair` replaces the file with exactly the re-encoding of the prefix, but
returns the empty list (`return nil, nil`), not the accumulated prefix the
claim promises. -/
theorem C3_cex :
    repairNewFile (encFile [⟨1, [], 0, false⟩] ++ [0])
        (repairScan (encFile [⟨1, [], 0, false⟩] ++ [0]))
      = encFile [⟨1, [], 0, false⟩] ∧
    repairRetEntries (repairScan (encFile [⟨1, [], 0, false⟩] ++ [0])) = [] ∧
    repairRetEntries (repairScan (encFile [⟨1, [], 0, false⟩] ++ [0]))
      ≠ [⟨1, [], 0, false⟩] := by
  decide

/-- C3 amended: on any corruption trigger after a well-formed prefix,
`Repair` replaces the newest segment with exactly the re-encoding of the
accumulated prefix; it returns that prefix for the short-body, parse
failure and CRC triggers, but returns the empty list when the length
prefix itself reads short. -/
theorem C3_repair_trigger (es : List WAL_Entry) (tail : List Nat)
    (hwf : ∀ e ∈ es, wfEntry e) (htrig : corruptionTrigger tail) :
    repairNewFile (encFile es ++ tail) (repairScan (encFile es ++ tail)) = encFile es ∧
    repairRetEntries (repairScan (encFile es ++ tail)) =
      (if shortHeaderTail tail then [] else es) := by
  rw [repairScan_encFile es tail hwf]
  rcases htrig with hshort | ⟨n, body, hn, hcase⟩
  · obtain ⟨h1, h2⟩ := hshort
    rw [repairScan_shortHeader tail h1 h2, repairConsAll_fixedNoRet]
    constructor
    · simp [repairNewFile]
    · rw [if_pos ⟨h1, h2⟩]
      simp [repairRetEntries]
  · have hlong : ¬ shortHeaderTail tail := by
      rcases hcase with ⟨heq, _⟩ | ⟨rest2, heq, _, _⟩ <;>
        · subst heq
          intro hc
          obtain ⟨_, hc2⟩ := hc
          simp only [List.length_append, u32le_length] at hc2
          omega
    rcases hcase with ⟨heq, hlt⟩ | ⟨rest2, heq, hblen, hbad⟩
    · subst heq
      rw [repairScan_shortBody n body hn hlt, repairConsAll_fixed]
      constructor
      · simp [repairNewFile]
      · rw [if_neg hlong]
        simp [repairRetEntries]
    · subst heq
      have helim : (protoUnmarshal body).elim True (fun e => e.crc ≠ crc32 e.data) := by
        rcases hbad with hnone | ⟨e, hsome, hne⟩
        · rw [hnone]
          trivial
        · rw [hsome]
          simpa using hne
      rw [repairScan_badBody n body rest2 hn hblen helim, repairConsAll_fixed]
      constructor
      · simp [repairNewFile]
      · rw [if_neg hlong]
        simp [repairRetEntries]

/-- C3 witness: one healthy record followed by one stray byte. -/
theorem C3_witness :
    repairNewFile (encFile [⟨1, [], 0, false⟩] ++ [0])
        (repairScan (encFile [⟨1, [], 0, false⟩] ++ [0])) = encFile [⟨1, [], 0, false⟩] ∧
    repairRetEntries (repairScan (encFile [⟨1, [], 0, false⟩] ++ [0])) =
      (if shortHeaderTail [0] then [] else [⟨1, [], 0, false⟩]) :=
  C3_repair_trigger [⟨1, [], 0, false⟩] [0] (by decide) (Or.inl (by decide))

/-- C4 counterexample: on a healthy one-record segment the scan reaches a
clean EOF and the source returns the records together with the `io.EOF`
error value, contradicting the claimed error-free return (the file is
indeed left untouched). -/
theorem C4_cex :
    repairScan (encFile [⟨1, [], 0, false⟩]) = .cleanEOF [⟨1, [], 0, false⟩] ∧
    repairRetErr (repairScan (encFile [⟨1, [], 0, false⟩])) = .eofErr ∧
    repairRetErr (repairScan (encFile [⟨1, [], 0, false⟩])) ≠ .nilErr := by
  decide

/-- C4 amended: `Repair` on a segment of well-formed frames ending exactly
at EOF returns all its records, but paired with the `io.EOF` error value
rather than a nil error; `replaceWithFixedFile` is never called, so the
segment file is untouched and in particular byte-identical. -/
theorem C4_repair_healthy (es : List WAL_Entry) (hwf : ∀ e ∈ es, wfEntry e) :
    repairScan (encFile es) = .cleanEOF es ∧
    repairRetEntries (repairScan (encFile es)) = es ∧
    repairRetErr (repairScan (encFile es)) = .eofErr ∧
    repairNewFile (encFile es) (repairScan (encFile es)) = encFile es := by
  have h : repairScan (encFile es) = .cleanEOF es := by
    have hfull := repairScan_encFile es [] hwf
    simp only [List.append_nil] at hfull
    rw [hfull, show repairScan [] = RepairRes.cleanEOF [] from rfl,
      repairConsAll_cleanEOF, List.append_nil]
  exact ⟨h, by rw [h]; rfl, by rw [h]; rfl, by rw [h]; rfl⟩

/-- C4 witness: a concrete healthy one-record segment. -/
theorem C4_witness :
    repairScan (encFile [⟨2, [9], crc32 [9], false⟩])
        = .cleanEOF [⟨2, [9], crc32 [9], false⟩] ∧
    repairRetEntries (repairScan (encFile [⟨2, [9], crc32 [9], false⟩]))
        = [⟨2, [9], crc32 [9], false⟩] ∧
    repairRetErr (repairScan (encFile [⟨2, [9], crc32 [9], false⟩])) = .eofErr ∧
    repairNewFile (encFile [⟨2, [9], crc32 [9], false⟩])
        (repairScan (encFile [⟨2, [9], crc32 [9], false⟩]))
        = encFile [⟨2, [9], crc32 [9], false⟩] :=
  C4_repair_healthy [⟨2, [9], crc32 [9], false⟩] (by decide)

theorem readScan_eq (tail : List Nat) :
    readAllEntriesFromFile tail = readStep (readGo tail.length) tail := rfl

theorem readAll_badFrame (d : List Nat) (e : WAL_Entry) (hd : d.length < 2 ^ 31)
    (hp : protoUnmarshal d = some e) (hc : e.crc ≠ crc32 e.data) :
    readAllEntriesFromFile (u32le d.length ++ d) = .err [] := by
  rw [readScan_eq, u32le_cons]
  simp only [readStep]
  have hsz : asU32 (d.length % 256 :: d.length / 256 % 256 :: d.length / 65536 % 256 ::
      d.length / 16777216 % 256 :: d) = d.length := by
    simp only [asU32]
    omega
  rw [if_neg (by simp only [List.length_cons]; omega), hsz, if_neg (by omega)]
  simp only [List.drop_succ_cons, List.drop_zero]
  rw [if_neg (by omega), List.take_length]
  unfold unmarshalAndVerifyEntry
  rw [hp]
  simp only [verifyCRC]
  rw [if_neg (by simpa using hc)]

/-- C8 counterexample: the byte string `[255]` fails structural parsing,
and the read-path decoder (`unmarshalAndVerifyEntry`, which calls
`MustUnmarshal`) panics instead of returning the claimed Corrupt error
value. -/
theorem C8_cex :
    protoUnmarshal [255] = none ∧
    unmarshalAndVerifyEntry [255] = .panicked ∧
    unmarshalAndVerifyEntry [255] ≠ .corrupt := by
  decide

/-- C8 amended: a frame payload that parses but whose stored CRC differs
from the IEEE CRC-32 of its data makes the decoder return a Corrupt error,
and `readAllEntriesFromFile` surfaces that error to the caller together
with the records already read; a payload that fails structural parsing
instead panics inside `MustUnmarshal` (it does not return an error). -/
theorem C8_decode_errors (d : List Nat) (e : WAL_Entry)
    (hp : protoUnmarshal d = some e) (hc : e.crc ≠ crc32 e.data)
    (es : List WAL_Entry) (hwf : ∀ x ∈ es, wfEntry x) (hd : d.length < 2 ^ 31) :
    unmarshalAndVerifyEntry d = .corrupt ∧
    readAllEntriesFromFile (encFile es ++ (u32le d.length ++ d)) = .err es ∧
    ∀ d2 : List Nat, protoUnmarshal d2 = none → unmarshalAndVerifyEntry d2 = .panicked := by
  refine ⟨?_, ?_, ?_⟩
  · unfold unmarshalAndVerifyEntry
    rw [hp]
    simp only [verifyCRC]
    rw [if_neg (by simpa using hc)]
  · rw [readAllEntriesFromFile_encFile es _ hwf, readAll_badFrame d e hd hp hc,
      consAll_err, List.append_nil]
  · intro d2 hd2
    unfold unmarshalAndVerifyEntry
    rw [hd2]

/-- C8 witness: a parsed record with stored CRC 5 over empty data (whose
CRC-32 is 0), preceded by one healthy record. -/
theorem C8_witness :
    protoUnmarshal (mustMarshal ⟨2, [], 5, false⟩) = some ⟨2, [], 5, false⟩ ∧
    (⟨2, [], 5, false⟩ : WAL_Entry).crc ≠ crc32 (⟨2, [], 5, false⟩ : WAL_Entry).data ∧
    (unmarshalAndVerifyEntry (mustMarshal ⟨2, [], 5, false⟩) = .corrupt ∧
     readAllEntriesFromFile (encFile [⟨1, [], 0, false⟩] ++
        (u32le (mustMarshal ⟨2, [], 5, false⟩).length ++ mustMarshal ⟨2, [], 5, false⟩))
       = .err [⟨1, [], 0, false⟩] ∧
     ∀ d2 : List Nat, protoUnmarshal d2 = none → unmarshalAndVerifyEntry d2 = .panicked) :=
  ⟨by decide, by decide,
    C8_decode_errors (mustMarshal ⟨2, [], 5, false⟩) ⟨2, [], 5, false⟩ (by decide)
      (by decide) [⟨1, [], 0, false⟩] (by decide) (by decide)⟩

/-! ## Rotation and retention (`rotateLog`, `deleteOldestSegment`) -/

/-- Directory-level state: the set of segment indices present on disk
(every file `segment-<j>`), and the active segment index. -/
structure RotState where
  dir : Finset Nat
  idx : Nat
deriving DecidableEq

/-- State after `OpenWAL` on a fresh directory: `segment-0` created,
active index 0. -/
def openFreshDir : RotState :=
  ⟨{0}, 0⟩

/-- Source `deleteOldestSegment` with `findOldestSegmentFile`: remove the
file with the smallest integer index, a no-op when the glob is empty. -/
def deleteOldestSegment (d : Finset Nat) : Finset Nat :=
  if h : d.Nonempty then d.erase (d.min' h) else d

/-- Source `rotateLog`: advance the active index, delete the oldest
segment once the new index reaches `maxSegments`, then create the new
segment file. -/
def rotateLog (m : Nat) (s : RotState) : RotState :=
  ⟨insert (s.idx + 1)
    (if m ≤ s.idx + 1 then deleteOldestSegment s.dir else s.dir), s.idx + 1⟩

theorem rotateLog_dir (m : Nat) (s : RotState) :
    (rotateLog m s).dir =
      insert (s.idx + 1) (if m ≤ s.idx + 1 then deleteOldestSegment s.dir else s.dir) := rfl

theorem rotateLog_idx (m : Nat) (s : RotState) : (rotateLog m s).idx = s.idx + 1 := rfl

/-- A single `WriteEntry`'s effect on the directory: `rotateLogIfNeeded`
rotates exactly when the current segment's size has reached `maxFileSize`
(abstracted as the boolean `rot`); the write itself adds no file. -/
def writeStep (m : Nat) (s : RotState) (rot : Bool) : RotState :=
  if rot then rotateLog m s else s

/-- Directory effect of a sequence of `WriteEntry` calls. -/
def writeTrace (m : Nat) (s : RotState) (tr : List Bool) : RotState :=
  tr.foldl (writeStep m) s

/-- Directory state after `R` rotations from a fresh open. -/
def rotN (m R : Nat) : RotState :=
  (rotateLog m)^[R] openFreshDir

/-- Invariant maintained by the write path over the directory state. -/
def rotInv (m : Nat) (s : RotState) : Prop :=
  s.dir.Nonempty ∧ (∀ j ∈ s.dir, j ≤ s.idx) ∧ s.dir.card ≤ s.idx + 1 ∧ s.dir.card ≤ m

theorem rotInv_rotateLog (m : Nat) (s : RotState) (h : rotInv m s) :
    rotInv m (rotateLog m s) := by
  obtain ⟨hne, hbound, hcard1, hcard2⟩ := h
  by_cases hc : m ≤ s.idx + 1
  · have hmin : s.dir.min' hne ∈ s.dir := s.dir.min'_mem hne
    have hdel : deleteOldestSegment s.dir = s.dir.erase (s.dir.min' hne) := by
      unfold deleteOldestSegment
      rw [dif_pos hne]
    have hcard_del : (deleteOldestSegment s.dir).card = s.dir.card - 1 := by
      rw [hdel, Finset.card_erase_of_mem hmin]
    have hnotmem : s.idx + 1 ∉ deleteOldestSegment s.dir := by
      rw [hdel]
      intro hmem
      have := hbound _ (Finset.mem_of_mem_erase hmem)
      omega
    refine ⟨?_, ?_, ?_, ?_⟩
    · simp [rotateLog_dir, hc, Finset.insert_nonempty]
    · intro j hj
      simp only [rotateLog_dir, if_pos hc, Finset.mem_insert] at hj
      show j ≤ s.idx + 1
      rcases hj with hj | hj
      · omega
      · rw [hdel] at hj
        have := hbound _ (Finset.mem_of_mem_erase hj)
        omega
    · simp only [rotateLog_dir, rotateLog_idx, if_pos hc]
      rw [Finset.card_insert_of_not_mem hnotmem, hcard_del]
      have : 1 ≤ s.dir.card := Finset.card_pos.mpr hne
      omega
    · simp only [rotateLog_dir, if_pos hc]
      rw [Finset.card_insert_of_not_mem hnotmem, hcard_del]
      have : 1 ≤ s.dir.card := Finset.card_pos.mpr hne
      omega
  · have hnotmem : s.idx + 1 ∉ s.dir := by
      intro hmem
      have := hbound _ hmem
      omega
    refine ⟨?_, ?_, ?_, ?_⟩
    · simp [rotateLog_dir, hc, Finset.insert_nonempty]
    · intro j hj
      simp only [rotateLog_dir, if_neg hc, Finset.mem_insert] at hj
      show j ≤ s.idx + 1
      rcases hj with hj | hj
      · omega
      · have := hbound _ hj
        omega
    · simp only [rotateLog_dir, rotateLog_idx, if_neg hc]
      rw [Finset.card_insert_of_not_mem hnotmem]
      omega
    · simp only [rotateLog_dir, if_neg hc]
      rw [Finset.card_insert_of_not_mem hnotmem]
      omega

theorem rotInv_writeTrace (m : Nat) (s : RotState) (tr : List Bool)
    (h : rotInv m s) : rotInv m (writeTrace m s tr) := by
  induction tr generalizing s with
  | nil => exact h
  | cons r tr ih =>
    simp only [writeTrace, List.foldl_cons] at ih ⊢
    apply ih
    cases r with
    | false => exact h
    | true => exact rotInv_rotateLog m s h

/-- C5: with retention bound `max_segments ≥ 1` (the spec's taxonomy
treats non-positive bounds as a `ConfigError`), after any sequence of
`WriteEntry` calls — whatever subset of them triggers rotation — the
number of `segment-*` files on disk never exceeds `max_segments`. -/
theorem C5_retention (m : Nat) (hm : 1 ≤ m) (tr : List Bool) :
    (writeTrace m openFreshDir tr).dir.card ≤ m := by
  have hinit : rotInv m openFreshDir := by
    refine ⟨⟨0, by simp [openFreshDir]⟩, ?_, ?_, ?_⟩
    · intro j hj
      simp only [openFreshDir, Finset.mem_singleton] at hj
      simp [openFreshDir, hj]
    · simp [openFreshDir]
    · simp only [openFreshDir]
      rw [Finset.card_singleton]
      omega
  exact (rotInv_writeTrace m openFreshDir tr hinit).2.2.2

/-- C5 witness: three rotating writes with `max_segments = 2`. -/
theorem C5_witness :
    (writeTrace 2 openFreshDir [true, true, true]).dir.card ≤ 2 :=
  C5_retention 2 (by decide) [true, true, true]

theorem Ico_min' (a b : Nat) (hne : (Finset.Ico a b).Nonempty) :
    (Finset.Ico a b).min' hne = a := by
  apply le_antisymm
  · apply Finset.min'_le
    apply Finset.mem_Ico.mpr
    obtain ⟨y, hy⟩ := hne
    have := Finset.mem_Ico.mp hy
    omega
  · apply Finset.le_min'
    intro y hy
    exact (Finset.mem_Ico.mp hy).1

theorem rotN_spec (m : Nat) (hm : 1 ≤ m) (R : Nat) :
    rotN m R = ⟨Finset.Ico (R + 1 - m) (R + 1), R⟩ := by
  induction R with
  | zero =>
    have h1 : 0 + 1 - m = 0 := by omega
    simp only [rotN, Function.iterate_zero_apply, h1]
    have h2 : Finset.Ico 0 (0 + 1) = {0} := rfl
    rw [h2]
    rfl
  | succ R ih =>
    rw [rotN, Function.iterate_succ_apply', ← rotN, ih]
    simp only [rotateLog]
    by_cases hc : m ≤ R + 1
    · rw [if_pos hc]
      have hne : (Finset.Ico (R + 1 - m) (R + 1)).Nonempty := by
        apply Finset.nonempty_Ico.mpr
        omega
      have hdel : deleteOldestSegment (Finset.Ico (R + 1 - m) (R + 1))
          = Finset.Ico (R + 1 - m + 1) (R + 1) := by
        unfold deleteOldestSegment
        rw [dif_pos hne, Ico_min']
        rw [Finset.Ico_erase_left]
        ext x
        simp only [Finset.mem_Ioo, Finset.mem_Ico]
        omega
      rw [hdel]
      have hins : insert (R + 1) (Finset.Ico (R + 1 - m + 1) (R + 1))
          = Finset.Ico (R + 1 + 1 - m) (R + 1 + 1) := by
        ext x
        simp only [Finset.mem_insert, Finset.mem_Ico]
        omega
      rw [hins]
    · rw [if_neg hc]
      have hins : insert (R + 1) (Finset.Ico (R + 1 - m) (R + 1))
          = Finset.Ico (R + 1 + 1 - m) (R + 1 + 1) := by
        ext x
        simp only [Finset.mem_insert, Finset.mem_Ico]
        omega
      rw [hins]

/-- C6 counterexample: with `max_segments = 2`, after 3 rotations the
directory holds segments `{2, 3}`, not the claimed
`{R - max_segments, …, R - 1} = {1, 2}`. -/
theorem C6_cex :
    (rotN 2 3).dir = Finset.Ico 2 4 ∧
    (rotN 2 3).dir ≠ Finset.Ico 1 3 := by
  decide

/-- C6 amended: with `1 ≤ max_segments < R`, after `R` rotations (each
segment filled by writes) the surviving segment indices are exactly
`{R - max_segments + 1, …, R}` — one above the claimed window, since the
just-created active segment `segment-R` is itself on disk. -/
theorem C6_rotation_window (m R : Nat) (hm : 1 ≤ m) (_hR : m < R) :
    (rotN m R).dir = Finset.Ico (R + 1 - m) (R + 1) := by
  rw [rotN_spec m hm R]

/-- C6 witness: `max_segments = 2`, `R = 3` rotations. -/
theorem C6_witness : (rotN 2 3).dir = Finset.Ico (3 + 1 - 2) (3 + 1) :=
  C6_rotation_window 2 3 (by decide) (by decide)

/-! ## Reading from a segment offset (`ReadAllFromOffset`) -/

/-- Fuel-driven most-significant-first decimal digits worker. -/
def decDigitsGo : Nat → Nat → List Nat
  | 0, n => [n]
  | f + 1, n => if n < 10 then [n] else decDigitsGo f (n / 10) ++ [n % 10]

/-- Decimal digit string of a segment index: the characters following
`segment-` in the file name. -/
def decDigits (n : Nat) : List Nat :=
  decDigitsGo n n

/-- Lexicographic comparison of digit strings.  Since every segment name
shares the stem `segment-`, the byte order of the file names is exactly
this order on the digit strings. -/
def lexLt : List Nat → List Nat → Bool
  | [], [] => false
  | [], _ :: _ => true
  | _ :: _, [] => false
  | a :: as, b :: bs => if a < b then true else if b < a then false else lexLt as bs

/-- Name order of two segment indices, as `filepath.Glob` sorts. -/
def nameLt (m n : Nat) : Bool :=
  lexLt (decDigits m) (decDigits n)

/-- Insertion into a list sorted ascending by file name. -/
def insertByName (m : Nat) : List Nat → List Nat
  | [] => [m]
  | n :: rest => if nameLt n m then n :: insertByName m rest else m :: n :: rest

/-- The order in which `filepath.Glob` hands back the `segment-*` files:
sorted by file name (lexicographically), not by integer index. -/
def sortByName (l : List Nat) : List Nat :=
  l.foldr insertByName []

/-- Contents of the segment file with index `i` in the directory model. -/
def fsGet (fs : List (Nat × List Nat)) (i : Nat) : List Nat :=
  match fs.find? (fun p => p.1 == i) with
  | some p => p.2
  | none => []

/-- Source `ReadAllFromOffset` loop body over the glob output: indices
below `offset` are skipped (an integer comparison on the `strconv.Atoi`
result), every other segment is read in glob order; the first failing
segment aborts the loop, returning only the entries accumulated from the
segments before it. -/
def rafoGo (fs : List (Nat × List Nat)) (offset : Int) : List Nat → ReadResult
  | [] => .ok []
  | i :: rest =>
    if (i : Int) < offset then rafoGo fs offset rest
    else
      match readAllEntriesFromFile (fsGet fs i) with
      | .ok es => (rafoGo fs offset rest).consAll es
      | .err _ => .err []
      | .panicked _ => .panicked []

/-- Source `ReadAllFromOffset` on a modelled directory. -/
def readAllFromOffset (fs : List (Nat × List Nat)) (offset : Int) : ReadResult :=
  rafoGo fs offset (sortByName (fs.map Prod.fst))

/-- C7: with segments 2 and 10 on disk (reachable with `max_segments ≥ 9`),
`filepath.Glob` returns `segment-10` before `segment-2` (lexicographic
name order), so `ReadAllFromOffset (-1)` concatenates segment 10's records
before segment 2's — not in ascending integer index order as the spec
requires.  The `>= offset` filter itself does compare indices as integers,
and `-1` does include every segment; only the order is wrong. -/
theorem C7_glob_order_bug :
    sortByName [2, 10] = [10, 2] ∧
    readAllFromOffset [(2, encFile [⟨1, [], 0, false⟩]), (10, encFile [⟨2, [], 0, false⟩])]
        (-1) = .ok [⟨2, [], 0, false⟩, ⟨1, [], 0, false⟩] ∧
    readAllFromOffset [(2, encFile [⟨1, [], 0, false⟩]), (10, encFile [⟨2, [], 0, false⟩])]
        (-1) ≠ .ok [⟨1, [], 0, false⟩, ⟨2, [], 0, false⟩] := by
  decide

/-! ## Checkpoints (modelled from the spec) -/

/-- Modelled from the spec: `CreateCheckpoint(checkpoint_bytes)` is absent
from the given source tree; per §4.4.3 it is the same as `WriteEntry` but
with `is_checkpoint = true` (the subsequent `Sync` only flushes, which the
byte-level state already reflects).  It consumes one sequence number. -/
def createCheckpoint (s : WALState) (c : List Nat) : WALState :=
  { lastSequenceNo := s.lastSequenceNo + 1,
    file := s.file ++ frameOf ⟨s.lastSequenceNo + 1, c, crc32 c, true⟩ }

/-- Modelled from the spec: the `after_checkpoint` filter of §4.4.5 —
"discard every record whose position is at or before the last checkpoint
marker, then include the checkpoint itself plus everything after it; if
the segment has no checkpoint, return all records". -/
def afterLastCheckpoint : List WAL_Entry → List WAL_Entry
  | [] => []
  | e :: rest =>
    if rest.any (fun x => x.isCheckpoint) then afterLastCheckpoint rest else e :: rest

/-- Modelled from the spec: `ReadAll(after_checkpoint)` — stream the
active segment's records, then apply the checkpoint filter when asked. -/
def readAllCk (s : WALState) (afterCk : Bool) : ReadResult :=
  match readAllEntriesFromFile s.file with
  | .ok es => .ok (if afterCk then afterLastCheckpoint es else es)
  | r => r

theorem readAllCk_ok (s : WALState) (es : List WAL_Entry)
    (h : readAllEntriesFromFile s.file = .ok es) :
    readAllCk s true = .ok (afterLastCheckpoint es) := by
  unfold readAllCk
  rw [h]
  rfl

theorem afterLastCheckpoint_append (es1 es2 : List WAL_Entry) (cp : WAL_Entry)
    (hcp : cp.isCheckpoint = true) (hes2 : ∀ e ∈ es2, e.isCheckpoint = false) :
    afterLastCheckpoint (es1 ++ cp :: es2) = cp :: es2 := by
  induction es1 with
  | nil =>
    simp only [List.nil_append, afterLastCheckpoint]
    rw [if_neg]
    simp only [List.any_eq_true, not_exists]
    intro e
    intro hmem
    rcases hmem with ⟨he, hb⟩
    rw [hes2 e he] at hb
    exact Bool.false_ne_true hb
  | cons x es1 ih =>
    simp only [List.cons_append, afterLastCheckpoint, List.append_eq]
    rw [if_pos, ih]
    simp only [List.any_eq_true]
    exact ⟨cp, by simp, hcp⟩

theorem mkEntries_no_checkpoint (seq : Nat) (ws : List (List Nat)) :
    ∀ e ∈ mkEntries seq ws, e.isCheckpoint = false := by
  induction ws generalizing seq with
  | nil => simp [mkEntries]
  | cons w ws ih =>
    intro e he
    simp only [mkEntries, List.mem_cons] at he
    rcases he with he | he
    · rw [he]
    · exact ih (seq + 1) e he

/-- C9: writing `w_1…w_k`, then `CreateCheckpoint(c)`, then `r_1…r_j`,
a read with `after_checkpoint = true` returns exactly one checkpoint
record carrying `c` followed by the records written after it (with `j = 0`
it returns just the checkpoint record). -/
theorem C9_checkpoint_read (ws rs : List (List Nat)) (c : List Nat)
    (hwb : ∀ w ∈ ws, ∀ b ∈ w, b < 256) (hwl : ∀ w ∈ ws, w.length < 2 ^ 20)
    (hrb : ∀ w ∈ rs, ∀ b ∈ w, b < 256) (hrl : ∀ w ∈ rs, w.length < 2 ^ 20)
    (hcb : ∀ b ∈ c, b < 256) (hcl : c.length < 2 ^ 20)
    (hcount : ws.length + rs.length + 2 ≤ 2 ^ 20) :
    readAllCk (writeAll (createCheckpoint (writeAll freshWAL ws) c) rs) true
      = .ok (⟨ws.length + 1, c, crc32 c, true⟩ :: mkEntries (ws.length + 2) rs) := by
  have hcp_wf : wfEntry ⟨ws.length + 1, c, crc32 c, true⟩ := by
    constructor
    · exact mustMarshal_length_lt _ (by simp; omega) (by simpa using hcl)
        (crc32_lt c hcb)
    · rfl
  have hws_wf : ∀ e ∈ mkEntries 1 ws, wfEntry e := mkEntries_wf 1 ws hwb hwl (by omega)
  have hrs_wf : ∀ e ∈ mkEntries (ws.length + 2) rs, wfEntry e :=
    mkEntries_wf _ rs hrb hrl (by omega)
  have hstate : writeAll (createCheckpoint (writeAll freshWAL ws) c) rs =
      ⟨ws.length + 1 + rs.length,
        encFile (mkEntries 1 ws ++
          ⟨ws.length + 1, c, crc32 c, true⟩ :: mkEntries (ws.length + 2) rs)⟩ := by
    rw [writeAll_spec freshWAL ws]
    simp only [freshWAL, Nat.zero_add, List.nil_append]
    simp only [createCheckpoint]
    rw [writeAll_spec]
    simp only [WALState.mk.injEq]
    constructor
    · trivial
    · rw [encFile_append]
      simp only [encFile]
      have h2 : ws.length + 1 + 1 = ws.length + 2 := by omega
      rw [h2, List.append_assoc]
  rw [hstate]
  have hall : ∀ e ∈ mkEntries 1 ws ++
      ⟨ws.length + 1, c, crc32 c, true⟩ :: mkEntries (ws.length + 2) rs, wfEntry e := by
    intro e he
    simp only [List.mem_append, List.mem_cons] at he
    rcases he with he | he | he
    · exact hws_wf e he
    · rw [he]
      exact hcp_wf
    · exact hrs_wf e he
  rw [readAllCk_ok _ _ (readAllEntriesFromFile_clean _ hall)]
  rw [afterLastCheckpoint_append _ _ _ rfl (mkEntries_no_checkpoint _ rs)]

/-- C9 witness: one write, a checkpoint, one later write. -/
theorem C9_witness :
    readAllCk (writeAll (createCheckpoint (writeAll freshWAL [[4]]) [5]) [[6]]) true
      = .ok (⟨List.length [[4]] + 1, [5], crc32 [5], true⟩ ::
          mkEntries (List.length [[4]] + 2) [[6]]) :=
  C9_checkpoint_read [[4]] [[6]] [5] (by decide) (by decide) (by decide) (by decide)
    (by decide) (by decide) (by decide)

/-! ## Frame effect of `Repair` on the engine state -/

/-- The engine's in-memory fields named by the frame-effect claim: the
cached last sequence number, the active segment index, the (index named by
the) open segment handle, and the buffered writer's pending bytes. -/
structure WALMem where
  lastSequenceNo : Nat
  currentSegmentIndex : Nat
  currentSegmentName : Nat
  bufWriter : List Nat
deriving DecidableEq, Repr

/-- Source `findLastSegmentIndexinFiles`: greatest integer index among the
globbed segment files, starting from 0. -/
def fsMaxIndex (fs : List (Nat × List Nat)) : Nat :=
  fs.foldl (fun a p => max a p.1) 0

/-- Replace (or create) the file with index `i`. -/
def fsSet (fs : List (Nat × List Nat)) (i : Nat) (c : List Nat) :
    List (Nat × List Nat) :=
  match fs with
  | [] => [(i, c)]
  | p :: rest => if p.1 == i then (i, c) :: rest else p :: fsSet rest i c

/-- Source `Repair` at the whole-engine level: locate the newest segment
via the glob (`findLastSegmentIndexinFiles`), scan its bytes, and on a
trigger atomically rename the rewritten temporary over
`wal.currentSegment.Name()` (`replaceWithFixedFile`).  No engine field is
ever assigned.  `none` models the two ways the call never returns:
`log.Fatalf` on an empty directory, and the `make` panic on a negative
size. -/
def repairOp (w : WALMem) (fs : List (Nat × List Nat)) :
    Option (WALMem × List (Nat × List Nat) × RepairRes) :=
  if fs.isEmpty then none
  else
    match repairScan (fsGet fs (fsMaxIndex fs)) with
    | .panicked => none
    | .cleanEOF es => some (w, fs, .cleanEOF es)
    | .fixedNoRet es =>
      some (w, fsSet fs w.currentSegmentName (encFile es), .fixedNoRet es)
    | .fixed es =>
      some (w, fsSet fs w.currentSegmentName (encFile es), .fixed es)

/-- C10: whenever `Repair` returns, the in-memory engine state
(`lastSequenceNo`, `currentSegmentIndex`, the open segment handle,
`bufWriter`) is exactly what it was before the call; only the newest
segment file on disk may have been replaced, so a caller must reopen the
log before writing to the repaired file. -/
theorem C10_repair_frame (w : WALMem) (fs : List (Nat × List Nat)) :
    (repairOp w fs).elim True (fun o => o.1 = w) := by
  unfold repairOp
  split_ifs
  · trivial
  · rcases repairScan (fsGet fs (fsMaxIndex fs)) with es | es | es
    · exact rfl
    · exact rfl
    · exact rfl
    · trivial

end GoWal
